import Mathlib

/-!
Formal model of the shipyardapp/dropbox-blueprints repository
(src/dropbox_blueprints/download_file.py and src/dropbox_blueprints/upload_file.py).

Python strings are modeled as List Char.  Python standard library helpers used
by the scripts (os.path.normpath, os.path.basename, str.strip with a slash,
re.sub with a literal dot pattern and count 1, decimal formatting of an int)
are modeled in the namespace Py, translated from the CPython implementations
of posixpath.normpath and posixpath.basename.  Interactions with the Dropbox
SDK and with the filesystem are modeled as explicit event traces or as
outcome-valued parameters.  Regular-expression matching (re.search with a
compiled pattern) is delegated by the scripts to the Python stdlib, so it is
modeled as an opaque boolean predicate parameter.
-/

set_option autoImplicit false

namespace Py

/-- Model of str.split with separator slash: splitting an empty string yields
a single empty part, and the function never returns the empty list. -/
def splitOnSlash : List Char → List (List Char)
  | [] => [[]]
  | c :: cs =>
    let r := splitOnSlash cs
    if c = '/' then [] :: r else (c :: r.headD []) :: r.tail

/-- Model of the slash-join used by posixpath.normpath (sep.join(comps)). -/
def joinSlash : List (List Char) → List Char
  | [] => []
  | [p] => p
  | p :: q :: ps => p ++ '/' :: joinSlash (q :: ps)

/-- Model of Python str.strip with the single character slash: removes all
leading and trailing slash characters. -/
def stripSlashes (s : List Char) : List Char :=
  (((s.dropWhile (fun c => c = '/')).reverse.dropWhile (fun c => c = '/'))).reverse

/-- Model of posixpath.basename: everything after the last slash. -/
def basename (p : List Char) : List Char :=
  (p.reverse.takeWhile (fun c => c ≠ '/')).reverse

/-- Number of initial slashes retained by posixpath.normpath:
0 when the path does not start with a slash, 2 when it starts with exactly two
slashes, and 1 otherwise. -/
def initialSlashes (s : List Char) : Nat :=
  if s.headD ' ' = '/' then
    if (s.drop 1).headD ' ' = '/' ∧ (s.drop 2).headD ' ' ≠ '/' then 2 else 1
  else 0

/-- One step of the component loop of posixpath.normpath. -/
def normCompsStep (initSl : Nat) (acc : List (List Char)) (comp : List Char) :
    List (List Char) :=
  if comp = [] ∨ comp = ['.'] then acc
  else if comp ≠ ['.', '.'] ∨ (initSl = 0 ∧ acc = []) ∨
      (acc ≠ [] ∧ acc.getLast? = some ['.', '.']) then
    acc ++ [comp]
  else if acc ≠ [] then acc.dropLast
  else acc

/-- The component loop of posixpath.normpath over all split components. -/
def normComps (initSl : Nat) (comps : List (List Char)) : List (List Char) :=
  comps.foldl (normCompsStep initSl) []

/-- Model of posixpath.normpath, translated from the CPython source. -/
def normpath (path : List Char) : List Char :=
  if path = [] then ['.']
  else
    let initSl := initialSlashes path
    let comps := normComps initSl (splitOnSlash path)
    let p := List.replicate initSl '/' ++ joinSlash comps
    if p = [] then ['.'] else p

/-- Decimal digit character for a single digit. -/
def digitChar (d : Nat) : Char :=
  if d = 0 then '0' else if d = 1 then '1' else if d = 2 then '2'
  else if d = 3 then '3' else if d = 4 then '4' else if d = 5 then '5'
  else if d = 6 then '6' else if d = 7 then '7' else if d = 8 then '8'
  else '9'

/-- Numeric value of a decimal digit character. -/
def charToDigit (c : Char) : Nat := c.toNat - 48

/-- Model of the Python decimal rendering of a natural number (f-string of an
int), as a list of digit characters, most significant digit first. -/
def pyNatStr (n : Nat) : List Char :=
  if n = 0 then ['0'] else ((Nat.digits 10 n).map digitChar).reverse

/-- Model of re.sub with the pattern backslash-dot and count 1: replace the
first dot of the string by the replacement string (the replacement used by the
scripts itself ends with a dot). -/
def subFirstDot (repl : List Char) : List Char → List Char
  | [] => []
  | c :: cs => if c = '.' then repl ++ cs else c :: subFirstDot repl cs

/-- Python truthiness of an optional string (None and the empty string are
falsy). -/
def pyTruthyStr : Option (List Char) → Bool
  | none => false
  | some s => !s.isEmpty

/-- Python truthiness of an optional natural number (None and 0 are falsy). -/
def pyTruthyNat : Option Nat → Bool
  | none => false
  | some n => n != 0

/-- A component list whose two-dot components all sit at the front: the shape
produced by the component loop of normpath on a relative path. -/
def DotDotFront (l : List (List Char)) : Prop :=
  ∃ k rest, l = List.replicate k ['.', '.'] ++ rest ∧ ['.', '.'] ∉ rest

end Py

/-- Errors raised by the Dropbox SDK, as distinguished by the scripts:
AuthError, ApiError, and any other exception. -/
inductive DbxError where
  | authError
  | apiError
  | otherError
deriving DecidableEq

/-- A Dropbox client, carrying the access key it was constructed with. -/
structure Client where
  access_key : List Char
deriving DecidableEq

/-- The two values of the source-file-name-match-type argument. -/
inductive MatchType where
  | exact_match
  | regex_match
deriving DecidableEq

/-- Dropbox API transfer calls issued by the scripts, one event per call. -/
inductive ApiEvent where
  | filesDownload (path : List Char)
  | filesUpload (path : List Char)
deriving DecidableEq

/-- Local filesystem effects of the downloader. -/
inductive FsEvent where
  | openWrite (path : List Char)
  | writeBytes (path : List Char)
  | remove (path : List Char)
deriving DecidableEq

namespace DownloadFile

/-- Model of extract_file_name_from_source_full_path of download_file.py
(os.path.basename of the source full path). -/
def extract_file_name_from_source_full_path (source_full_path : List Char) : List Char :=
  Py.basename source_full_path

/-- Model of enumerate_destination_file_name of download_file.py: replace the
first dot with an underscore, the file number and a dot; with no dot, append
an underscore and the file number. -/
def enumerate_destination_file_name (destination_file_name : List Char)
    (file_number : Nat) : List Char :=
  if '.' ∈ destination_file_name then
    Py.subFirstDot ('_' :: (Py.pyNatStr file_number ++ ['.'])) destination_file_name
  else destination_file_name ++ '_' :: Py.pyNatStr file_number

/-- Model of determine_destination_file_name of download_file.py, with Python
truthiness of the optional arguments made explicit. -/
def determine_destination_file_name (source_full_path : List Char)
    (destination_file_name : Option (List Char)) (file_number : Option Nat) :
    List Char :=
  if Py.pyTruthyStr destination_file_name then
    if Py.pyTruthyNat file_number then
      enumerate_destination_file_name (destination_file_name.getD []) (file_number.getD 0)
    else destination_file_name.getD []
  else extract_file_name_from_source_full_path source_full_path

/-- Model of clean_folder_name of download_file.py: strip slashes, then
normalize the path when nonempty. -/
def clean_folder_name (folder_name : List Char) : List Char :=
  let folder_name := Py.stripSlashes folder_name
  if folder_name ≠ [] then Py.normpath folder_name else folder_name

/-- Model of combine_folder_and_file_name of download_file.py. -/
def combine_folder_and_file_name (folder_name file_name : List Char) : List Char :=
  let combined_name :=
    Py.normpath (folder_name ++ (if folder_name ≠ [] then ['/'] else []) ++ file_name)
  Py.normpath combined_name

/-- Model of find_matching_files of download_file.py: the loop appending every
listed name on which re.search succeeds, re.search being the opaque predicate
file_name_re. -/
def find_matching_files (file_names : List (List Char))
    (file_name_re : List Char → Bool) : List (List Char) :=
  file_names.foldl
    (fun matching_file_names file_name =>
      if file_name_re file_name then matching_file_names ++ [file_name]
      else matching_file_names) []

/-- The leading-slash guard applied by main of download_file.py before each
transfer (prepend a slash when the path does not start with one). -/
def ensureLeadingSlash (s : List Char) : List Char :=
  if s.headD ' ' = '/' then s else '/' :: s

/-- The list of remote paths download_file.py main attempts to download, in
order: in regex mode the matching listed names, in exact mode the single
combined source path, each with the leading-slash guard applied. -/
def download_planned (match_type : MatchType)
    (source_folder_name source_file_name : List Char)
    (listed : List (List Char)) (file_name_re : List Char → Bool) :
    List (List Char) :=
  let source_full_path :=
    combine_folder_and_file_name (clean_folder_name source_folder_name) source_file_name
  match match_type with
  | MatchType.regex_match =>
    (find_matching_files listed file_name_re).map ensureLeadingSlash
  | MatchType.exact_match => [ensureLeadingSlash source_full_path]

/-- Model of get_dropbox_client of download_file.py: construct the client from
the access key, run users_get_current_account (outcome given by the
account_query parameter), return the client on success and re-raise the error
otherwise. -/
def get_dropbox_client (account_query : Client → Except DbxError Unit)
    (access_key : List Char) : Except DbxError Client :=
  let client : Client := ⟨access_key⟩
  match account_query client with
  | Except.ok _ => Except.ok client
  | Except.error e => Except.error e

/-- Model of the control flow of main of download_file.py: the client is
obtained first; only with a client does the script compute the list of
download attempts. -/
def main_model (account_query : Client → Except DbxError Unit)
    (access_key : List Char) (match_type : MatchType)
    (source_folder_name source_file_name : List Char)
    (listed : List (List Char)) (file_name_re : List Char → Bool) :
    Except DbxError (List (List Char)) :=
  match get_dropbox_client account_query access_key with
  | Except.error e => Except.error e
  | Except.ok _client =>
    Except.ok (download_planned match_type source_folder_name source_file_name
      listed file_name_re)

/-- Trace semantics of the download loop of main: one files_download call per
file, in order; download_dropbox_file re-raises every error, which aborts the
loop. -/
def run_download_loop (outcome : List Char → Except DbxError Unit) :
    List (List Char) → List ApiEvent × Except DbxError Unit
  | [] => ([], Except.ok ())
  | f :: fs =>
    match outcome f with
    | Except.ok _ =>
      let r := run_download_loop outcome fs
      (ApiEvent.filesDownload f :: r.1, r.2)
    | Except.error e => ([ApiEvent.filesDownload f], Except.error e)

/-- Filesystem-effect semantics of download_dropbox_file at a local path: on
success the file is opened and written; on any error the opened file is
removed and the error is re-raised. -/
def download_dropbox_file_fs (local_path : List Char)
    (outcome : Except DbxError Unit) : List FsEvent × Except DbxError Unit :=
  match outcome with
  | Except.ok _ =>
    ([FsEvent.openWrite local_path, FsEvent.writeBytes local_path], Except.ok ())
  | Except.error e =>
    ([FsEvent.openWrite local_path, FsEvent.remove local_path], Except.error e)

/-- Effect of one filesystem event on the set of existing local files. -/
def applyFsEvent (st : List (List Char)) : FsEvent → List (List Char)
  | FsEvent.openWrite p => p :: st
  | FsEvent.writeBytes _ => st
  | FsEvent.remove p => st.filter (fun q => q ≠ p)

/-- Existing local files after a list of filesystem events. -/
def runFs (st : List (List Char)) (evs : List FsEvent) : List (List Char) :=
  evs.foldl applyFsEvent st

end DownloadFile

namespace UploadFile

/-- CHUNK_SIZE constant of upload_file.py. -/
def CHUNK_SIZE : Nat := 10 * 1024 * 1024

/-- A contiguous range of bytes of the source file: the bytes with positions
start, start+1, ..., start+size-1. -/
structure Chunk where
  start : Nat
  size : Nat
deriving DecidableEq

/-- Dropbox upload-session calls issued by upload_large_dropbox_file, with the
chunk of file bytes passed to each call and, for append and finish, the offset
field of the cursor passed along. -/
inductive UpEvent where
  | sessionStart (chunk : Chunk)
  | sessionAppend (chunk : Chunk) (offset : Nat)
  | sessionFinish (chunk : Chunk) (offset : Nat)
deriving DecidableEq

/-- Model of f.read(n) on a file of file_size bytes with the read position at
pos: returns the chunk of bytes read and the new read position (f.tell()). -/
def readChunk (file_size pos n : Nat) : Chunk × Nat :=
  (⟨pos, min n (file_size - pos)⟩, pos + min n (file_size - pos))

/-- The while loop of upload_large_dropbox_file.  The state is the read
position of the file handle (f.tell()) and the offset field of the upload
session cursor; fuel bounds the number of iterations (each iteration reads at
least one byte, so file_size is always enough fuel). -/
def uploadLargeLoop (file_size : Nat) : Nat → Nat → Nat → List UpEvent
  | 0, _, _ => []
  | fuel + 1, pos, offset =>
    if pos < file_size then
      if file_size - pos ≤ CHUNK_SIZE then
        let rc := readChunk file_size pos CHUNK_SIZE
        UpEvent.sessionFinish rc.1 offset :: uploadLargeLoop file_size fuel rc.2 offset
      else
        let rc := readChunk file_size pos CHUNK_SIZE
        UpEvent.sessionAppend rc.1 offset :: uploadLargeLoop file_size fuel rc.2 rc.2
    else []

/-- Model of upload_large_dropbox_file on a file of file_size bytes: the
session-start call with the first read chunk, then the while loop with the
cursor offset initialized to f.tell(). -/
def upload_large_dropbox_file (file_size : Nat) : List UpEvent :=
  let rc := readChunk file_size 0 CHUNK_SIZE
  UpEvent.sessionStart rc.1 :: uploadLargeLoop file_size file_size rc.2 rc.2

/-- Number of file bytes sent by one upload-session call. -/
def sentSize : UpEvent → Nat
  | .sessionStart c => c.size
  | .sessionAppend c _ => c.size
  | .sessionFinish c _ => c.size

/-- Total number of file bytes sent by a list of upload-session calls. -/
def totalSent (evs : List UpEvent) : Nat := (evs.map sentSize).sum

/-- The two branches of upload_dropbox_file. -/
inductive UploadMethod where
  | small
  | large
deriving DecidableEq

/-- The branch taken by upload_dropbox_file for a source file of the given
size in bytes. -/
def upload_dropbox_file_method (size : Nat) : UploadMethod :=
  if size ≤ CHUNK_SIZE then UploadMethod.small else UploadMethod.large

/-- The shape of the event list emitted by the while loop when entered with
read position pos and cursor offset pos: k full-chunk append calls followed by
one finish call with the remaining bytes. -/
def expectedTail (s : Nat) : Nat → Nat → List UpEvent
  | pos, 0 => [UpEvent.sessionFinish ⟨pos, s - pos⟩ pos]
  | pos, k + 1 =>
    UpEvent.sessionAppend ⟨pos, CHUNK_SIZE⟩ pos :: expectedTail s (pos + CHUNK_SIZE) k

/-- Model of extract_file_name_from_source_full_path of upload_file.py. -/
def extract_file_name_from_source_full_path (source_full_path : List Char) : List Char :=
  Py.basename source_full_path

/-- Model of enumerate_destination_file_name of upload_file.py. -/
def enumerate_destination_file_name (destination_file_name : List Char)
    (file_number : Nat) : List Char :=
  if '.' ∈ destination_file_name then
    Py.subFirstDot ('_' :: (Py.pyNatStr file_number ++ ['.'])) destination_file_name
  else destination_file_name ++ '_' :: Py.pyNatStr file_number

/-- Model of determine_destination_file_name of upload_file.py. -/
def determine_destination_file_name (source_full_path : List Char)
    (destination_file_name : Option (List Char)) (file_number : Option Nat) :
    List Char :=
  if Py.pyTruthyStr destination_file_name then
    if Py.pyTruthyNat file_number then
      enumerate_destination_file_name (destination_file_name.getD [])
        (file_number.getD 0)
    else destination_file_name.getD []
  else extract_file_name_from_source_full_path source_full_path

/-- Model of clean_folder_name of upload_file.py. -/
def clean_folder_name (folder_name : List Char) : List Char :=
  let folder_name := Py.stripSlashes folder_name
  if folder_name ≠ [] then Py.normpath folder_name else folder_name

/-- Model of combine_folder_and_file_name of upload_file.py. -/
def combine_folder_and_file_name (folder_name file_name : List Char) : List Char :=
  let combined_name :=
    Py.normpath (folder_name ++ (if folder_name ≠ [] then ['/'] else []) ++ file_name)
  Py.normpath combined_name

/-- Model of find_all_file_matches of upload_file.py: the loop appending every
local file name on which re.search succeeds. -/
def find_all_file_matches (file_names : List (List Char))
    (file_name_re : List Char → Bool) : List (List Char) :=
  file_names.foldl
    (fun matching_file_names file =>
      if file_name_re file then matching_file_names ++ [file]
      else matching_file_names) []

/-- The list of local source paths upload_file.py main attempts to upload, in
order: in regex mode the matching local file names, in exact mode the single
path combined from the working directory, the source folder and the source
file name. -/
def upload_planned (match_type : MatchType)
    (cwd source_folder_name source_file_name : List Char)
    (local_files : List (List Char)) (file_name_re : List Char → Bool) :
    List (List Char) :=
  let source_full_path :=
    combine_folder_and_file_name (cwd ++ '/' :: source_folder_name) source_file_name
  match match_type with
  | MatchType.regex_match => find_all_file_matches local_files file_name_re
  | MatchType.exact_match => [source_full_path]

/-- Model of get_dropbox_client of upload_file.py (same code as in
download_file.py). -/
def get_dropbox_client (account_query : Client → Except DbxError Unit)
    (access_key : List Char) : Except DbxError Client :=
  let client : Client := ⟨access_key⟩
  match account_query client with
  | Except.ok _ => Except.ok client
  | Except.error e => Except.error e

/-- Model of the control flow of main of upload_file.py: the client is
obtained first; only with a client does the script compute the list of upload
attempts. -/
def main_model (account_query : Client → Except DbxError Unit)
    (access_key : List Char) (match_type : MatchType)
    (cwd source_folder_name source_file_name : List Char)
    (local_files : List (List Char)) (file_name_re : List Char → Bool) :
    Except DbxError (List (List Char)) :=
  match get_dropbox_client account_query access_key with
  | Except.error e => Except.error e
  | Except.ok _client =>
    Except.ok (upload_planned match_type cwd source_folder_name source_file_name
      local_files file_name_re)

/-- Trace semantics of the upload loop of main: one upload per file, in
order; upload_small_dropbox_file and upload_large_dropbox_file catch ApiError
(print and continue), while any other error propagates and aborts the loop. -/
def run_upload_loop (outcome : List Char → Except DbxError Unit) :
    List (List Char) → List ApiEvent × Except DbxError Unit
  | [] => ([], Except.ok ())
  | f :: fs =>
    match outcome f with
    | Except.ok _ =>
      let r := run_upload_loop outcome fs
      (ApiEvent.filesUpload f :: r.1, r.2)
    | Except.error DbxError.apiError =>
      let r := run_upload_loop outcome fs
      (ApiEvent.filesUpload f :: r.1, r.2)
    | Except.error e => ([ApiEvent.filesUpload f], Except.error e)

end UploadFile

namespace Py

theorem dropWhile_head_not {α : Type} (p : α → Bool) :
    ∀ (l : List α) (a : α), (l.dropWhile p).head? = some a → p a = false := by
  intro l
  induction l with
  | nil => intro a h; simp at h
  | cons c cs ih =>
    intro a h
    by_cases hc : p c
    · exact ih a (by simpa [List.dropWhile_cons, hc] using h)
    · simp [List.dropWhile_cons, hc] at h
      rw [← h]
      simpa using hc

theorem dropWhile_getLast? {α : Type} (p : α → Bool) :
    ∀ l : List α, l.dropWhile p ≠ [] → (l.dropWhile p).getLast? = l.getLast? := by
  intro l
  induction l with
  | nil => intro h; simp at h
  | cons c cs ih =>
    intro h
    by_cases hc : p c
    · have hne : cs.dropWhile p ≠ [] := by simpa [List.dropWhile_cons, hc] using h
      rcases cs with _ | ⟨b, l⟩
      · simp at hne
      · rw [List.dropWhile_cons, if_pos hc, ih hne, List.getLast?_cons_cons]
    · simp [List.dropWhile_cons, hc]

theorem basename_no_slash (p : List Char) : '/' ∉ basename p := by
  intro hmem
  have h1 : '/' ∈ p.reverse.takeWhile (fun c => c ≠ '/') := by
    simpa [basename] using hmem
  have := List.mem_takeWhile_imp h1
  simp at this

theorem basename_decomp (p : List Char) :
    ∃ pre, p = pre ++ basename p ∧ (pre = [] ∨ pre.getLast? = some '/') := by
  refine ⟨(p.reverse.dropWhile (fun c => c ≠ '/')).reverse, ?_, ?_⟩
  · show p = (p.reverse.dropWhile (fun c => c ≠ '/')).reverse ++
      (p.reverse.takeWhile (fun c => c ≠ '/')).reverse
    rw [← List.reverse_append, List.takeWhile_append_dropWhile, List.reverse_reverse]
  · rcases hdw : p.reverse.dropWhile (fun c => c ≠ '/') with _ | ⟨a, rest⟩
    · left; simp
    · right
      have hhead : ((p.reverse.dropWhile (fun c => c ≠ '/')).head?) = some a := by
        rw [hdw]; rfl
      have := dropWhile_head_not (fun c => c ≠ '/') p.reverse a hhead
      have ha : a = '/' := by simpa using this
      rw [List.getLast?_reverse, ha]
      rfl

end Py

namespace UploadFile

theorem chunk_size_pos : 0 < CHUNK_SIZE := by norm_num [CHUNK_SIZE]

theorem uploadLargeLoop_at_end (s : Nat) (fuel offset : Nat) :
    uploadLargeLoop s fuel s offset = [] := by
  cases fuel with
  | zero => rfl
  | succ fuel => simp [uploadLargeLoop]

theorem uploadLargeLoop_spec (s : Nat) (fuel : Nat) :
    ∀ pos, pos < s → s - pos ≤ fuel →
    ∃ k, uploadLargeLoop s fuel pos pos = expectedTail s pos k ∧
      0 < s - (pos + CHUNK_SIZE * k) ∧ s - (pos + CHUNK_SIZE * k) ≤ CHUNK_SIZE := by
  induction fuel with
  | zero => intro pos h1 h2; omega
  | succ fuel ih =>
    intro pos h1 h2
    by_cases hc : s - pos ≤ CHUNK_SIZE
    · refine ⟨0, ?_, by omega, by simpa using hc⟩
      have hmin : min CHUNK_SIZE (s - pos) = s - pos := Nat.min_eq_right hc
      have hps : pos + (s - pos) = s := by omega
      simp only [uploadLargeLoop, readChunk, if_pos h1, if_pos hc, hmin, hps,
        uploadLargeLoop_at_end, expectedTail]
    · push_neg at hc
      have hmin : min CHUNK_SIZE (s - pos) = CHUNK_SIZE := Nat.min_eq_left (le_of_lt hc)
      have h1' : pos + CHUNK_SIZE < s := by omega
      have h2' : s - (pos + CHUNK_SIZE) ≤ fuel := by
        have := chunk_size_pos; omega
      obtain ⟨k, hk, hk1, hk2⟩ := ih (pos + CHUNK_SIZE) h1' h2'
      have harith : pos + CHUNK_SIZE * (k + 1) = pos + CHUNK_SIZE + CHUNK_SIZE * k := by
        ring
      refine ⟨k + 1, ?_, by rw [harith]; exact hk1, by rw [harith]; exact hk2⟩
      simp only [uploadLargeLoop, readChunk, if_pos h1, if_neg (by omega :
        ¬ s - pos ≤ CHUNK_SIZE), hmin, expectedTail, hk]

theorem expectedTail_closed (s : Nat) :
    ∀ k pos, expectedTail s pos k =
      ((List.range k).map fun i =>
        UpEvent.sessionAppend ⟨pos + CHUNK_SIZE * i, CHUNK_SIZE⟩ (pos + CHUNK_SIZE * i)) ++
      [UpEvent.sessionFinish ⟨pos + CHUNK_SIZE * k, s - (pos + CHUNK_SIZE * k)⟩
        (pos + CHUNK_SIZE * k)] := by
  intro k
  induction k with
  | zero => intro pos; simp [expectedTail]
  | succ k ih =>
    intro pos
    rw [expectedTail, ih (pos + CHUNK_SIZE), List.range_succ_eq_map]
    have harith : pos + CHUNK_SIZE * (k + 1) = pos + CHUNK_SIZE + CHUNK_SIZE * k := by ring
    simp only [List.map_cons, List.map_map, Nat.mul_zero, Nat.add_zero, List.cons_append,
      harith]
    refine congrArg₂ _ rfl (congrArg₂ _ ?_ rfl)
    refine List.map_congr_left fun i _ => ?_
    have : pos + CHUNK_SIZE * (i + 1) = pos + CHUNK_SIZE + CHUNK_SIZE * i := by ring
    simp [Function.comp, this]

theorem expectedTail_totalSent (s : Nat) :
    ∀ k pos, pos + CHUNK_SIZE * k < s → totalSent (expectedTail s pos k) = s - pos := by
  intro k
  induction k with
  | zero => intro pos _; simp [expectedTail, totalSent, sentSize]
  | succ k ih =>
    intro pos h
    have hmul : CHUNK_SIZE * (k + 1) = CHUNK_SIZE * k + CHUNK_SIZE := Nat.mul_succ _ _
    have h' : pos + CHUNK_SIZE + CHUNK_SIZE * k < s := by omega
    have hsum := ih (pos + CHUNK_SIZE) h'
    simp only [expectedTail, totalSent, List.map_cons, List.sum_cons, sentSize] at *
    omega

end UploadFile

/-- C1: upload_dropbox_file performs the single-call (small) upload exactly
when the source file size is at most CHUNK_SIZE = 10 * 1024 * 1024 bytes, and
the chunked upload-session (large) transfer exactly when the size exceeds
that threshold. -/
theorem claim_C1_upload_threshold :
    UploadFile.CHUNK_SIZE = 10 * 1024 * 1024 ∧
    ∀ size : Nat,
      (UploadFile.upload_dropbox_file_method size = UploadFile.UploadMethod.small ↔
        size ≤ UploadFile.CHUNK_SIZE) ∧
      (UploadFile.upload_dropbox_file_method size = UploadFile.UploadMethod.large ↔
        UploadFile.CHUNK_SIZE < size) := by
  refine ⟨rfl, fun size => ?_⟩
  by_cases h : size ≤ UploadFile.CHUNK_SIZE <;>
    (simp [UploadFile.upload_dropbox_file_method, h]; try omega)

/-- C2: for a file of size s exceeding CHUNK_SIZE, the chunked upload sends
the bytes in order exactly once: a session-start call with the first
CHUNK_SIZE bytes, then k append calls each carrying the next full CHUNK_SIZE
bytes with the cursor offset equal to the number of bytes already sent, and a
final finish call with the remaining at-most-CHUNK_SIZE (and at least one)
bytes, the total sent being exactly s. -/
theorem claim_C2_chunked_upload (s : Nat) (h : UploadFile.CHUNK_SIZE < s) :
    ∃ k,
      UploadFile.upload_large_dropbox_file s =
        UploadFile.UpEvent.sessionStart ⟨0, UploadFile.CHUNK_SIZE⟩ ::
        (((List.range k).map fun i =>
          UploadFile.UpEvent.sessionAppend
            ⟨UploadFile.CHUNK_SIZE + UploadFile.CHUNK_SIZE * i, UploadFile.CHUNK_SIZE⟩
            (UploadFile.CHUNK_SIZE + UploadFile.CHUNK_SIZE * i)) ++
        [UploadFile.UpEvent.sessionFinish
          ⟨UploadFile.CHUNK_SIZE + UploadFile.CHUNK_SIZE * k,
            s - (UploadFile.CHUNK_SIZE + UploadFile.CHUNK_SIZE * k)⟩
          (UploadFile.CHUNK_SIZE + UploadFile.CHUNK_SIZE * k)]) ∧
      0 < s - (UploadFile.CHUNK_SIZE + UploadFile.CHUNK_SIZE * k) ∧
      s - (UploadFile.CHUNK_SIZE + UploadFile.CHUNK_SIZE * k) ≤ UploadFile.CHUNK_SIZE ∧
      UploadFile.totalSent (UploadFile.upload_large_dropbox_file s) = s := by
  have hstart : UploadFile.upload_large_dropbox_file s =
      UploadFile.UpEvent.sessionStart ⟨0, UploadFile.CHUNK_SIZE⟩ ::
        UploadFile.uploadLargeLoop s s UploadFile.CHUNK_SIZE UploadFile.CHUNK_SIZE := by
    simp only [UploadFile.upload_large_dropbox_file, UploadFile.readChunk, Nat.sub_zero,
      Nat.min_eq_left (le_of_lt h), Nat.zero_add]
  obtain ⟨k, hk, hk1, hk2⟩ :=
    UploadFile.uploadLargeLoop_spec s s UploadFile.CHUNK_SIZE h (by omega)
  refine ⟨k, ?_, hk1, hk2, ?_⟩
  · rw [hstart, hk, UploadFile.expectedTail_closed]
  · rw [hstart, hk]
    have hlt : UploadFile.CHUNK_SIZE + UploadFile.CHUNK_SIZE * k < s := by omega
    have := UploadFile.expectedTail_totalSent s k UploadFile.CHUNK_SIZE hlt
    simp only [UploadFile.totalSent, List.map_cons, List.sum_cons, UploadFile.sentSize] at *
    omega

/-- Witness for C2 at the concrete size CHUNK_SIZE + 1. -/
theorem claim_C2_chunked_upload_witness :
    UploadFile.CHUNK_SIZE < UploadFile.CHUNK_SIZE + 1 ∧
    ∃ k,
      UploadFile.upload_large_dropbox_file (UploadFile.CHUNK_SIZE + 1) =
        UploadFile.UpEvent.sessionStart ⟨0, UploadFile.CHUNK_SIZE⟩ ::
        (((List.range k).map fun i =>
          UploadFile.UpEvent.sessionAppend
            ⟨UploadFile.CHUNK_SIZE + UploadFile.CHUNK_SIZE * i, UploadFile.CHUNK_SIZE⟩
            (UploadFile.CHUNK_SIZE + UploadFile.CHUNK_SIZE * i)) ++
        [UploadFile.UpEvent.sessionFinish
          ⟨UploadFile.CHUNK_SIZE + UploadFile.CHUNK_SIZE * k,
            UploadFile.CHUNK_SIZE + 1 - (UploadFile.CHUNK_SIZE + UploadFile.CHUNK_SIZE * k)⟩
          (UploadFile.CHUNK_SIZE + UploadFile.CHUNK_SIZE * k)]) ∧
      0 < UploadFile.CHUNK_SIZE + 1 - (UploadFile.CHUNK_SIZE + UploadFile.CHUNK_SIZE * k) ∧
      UploadFile.CHUNK_SIZE + 1 - (UploadFile.CHUNK_SIZE + UploadFile.CHUNK_SIZE * k) ≤
        UploadFile.CHUNK_SIZE ∧
      UploadFile.totalSent (UploadFile.upload_large_dropbox_file (UploadFile.CHUNK_SIZE + 1)) =
        UploadFile.CHUNK_SIZE + 1 :=
  ⟨Nat.lt_succ_self _, claim_C2_chunked_upload (UploadFile.CHUNK_SIZE + 1) (Nat.lt_succ_self _)⟩

/-- C3: when the --destination-file-name argument is absent (None or the
empty string), the destination file name equals the basename of the source
full path (the part after the last slash), for both the downloader and the
uploader, regardless of the file number (so in both exact-match and
regex-match modes). -/
theorem claim_C3_default_destination_name :
    ∀ (sfp : List Char) (fno : Option Nat),
      DownloadFile.determine_destination_file_name sfp none fno = Py.basename sfp ∧
      DownloadFile.determine_destination_file_name sfp (some []) fno = Py.basename sfp ∧
      UploadFile.determine_destination_file_name sfp none fno = Py.basename sfp ∧
      UploadFile.determine_destination_file_name sfp (some []) fno = Py.basename sfp ∧
      '/' ∉ Py.basename sfp ∧
      ∃ pre, sfp = pre ++ Py.basename sfp ∧ (pre = [] ∨ pre.getLast? = some '/') := by
  intro sfp fno
  refine ⟨?_, ?_, ?_, ?_, Py.basename_no_slash sfp, Py.basename_decomp sfp⟩ <;>
    simp [DownloadFile.determine_destination_file_name,
      UploadFile.determine_destination_file_name, Py.pyTruthyStr,
      DownloadFile.extract_file_name_from_source_full_path,
      UploadFile.extract_file_name_from_source_full_path]

namespace Py

theorem charToDigit_digitChar (d : Nat) (h : d < 10) : charToDigit (digitChar d) = d := by
  interval_cases d <;> rfl

theorem pyNatStr_val (n : Nat) :
    Nat.ofDigits 10 (((pyNatStr n).map charToDigit).reverse) = n := by
  by_cases h : n = 0
  · subst h
    simp [pyNatStr, charToDigit, Nat.ofDigits]
  · rw [pyNatStr, if_neg h, List.map_reverse, List.reverse_reverse, List.map_map]
    have hmap : (Nat.digits 10 n).map (charToDigit ∘ digitChar) = Nat.digits 10 n := by
      conv_rhs => rw [← List.map_id (Nat.digits 10 n)]
      refine List.map_congr_left fun d hd => ?_
      simpa using charToDigit_digitChar d (Nat.digits_lt_base (by norm_num) hd)
    rw [hmap, Nat.ofDigits_digits]

theorem pyNatStr_injective : Function.Injective pyNatStr := by
  intro m n h
  have h2 : Nat.ofDigits 10 (((pyNatStr m).map charToDigit).reverse) =
      Nat.ofDigits 10 (((pyNatStr n).map charToDigit).reverse) := by rw [h]
  rwa [pyNatStr_val, pyNatStr_val] at h2

theorem pyNatStr_one : pyNatStr 1 = ['1'] := by
  rw [pyNatStr, if_neg one_ne_zero,
    Nat.digits_def' (by norm_num : (1:ℕ) < 10) (by norm_num : (0:ℕ) < 1)]
  norm_num [digitChar]

theorem subFirstDot_eq (repl : List Char) :
    ∀ d : List Char, '.' ∈ d →
      subFirstDot repl d =
        d.takeWhile (fun c => c ≠ '.') ++ repl ++ (d.dropWhile (fun c => c ≠ '.')).tail := by
  intro d
  induction d with
  | nil => intro h; simp at h
  | cons c cs ih =>
    intro h
    by_cases hc : c = '.'
    · subst hc
      simp [subFirstDot, List.takeWhile_cons, List.dropWhile_cons]
    · have hcs : '.' ∈ cs := by
        rcases List.mem_cons.mp h with h1 | h1
        · exact absurd h1.symm hc
        · exact h1
      simp [subFirstDot, hc, List.takeWhile_cons, List.dropWhile_cons, ih hcs]

theorem subFirstDot_inj (d : List Char) (hd : '.' ∈ d) (r1 r2 : List Char)
    (h : subFirstDot r1 d = subFirstDot r2 d) : r1 = r2 := by
  rw [subFirstDot_eq r1 d hd, subFirstDot_eq r2 d hd] at h
  exact List.append_cancel_left (List.append_cancel_right h)

end Py

/-- C9: enumerate_destination_file_name inserts the file number before the
first dot: with a dot present only the first dot is replaced by an
underscore, the decimal number and a dot (so archive.tar.gz with number 1
becomes archive_1.tar.gz); with no dot, an underscore and the number are
appended at the end.  The uploader's copy behaves identically. -/
theorem claim_C9_enumerate_first_dot :
    (∀ (d : List Char) (n : Nat),
      DownloadFile.enumerate_destination_file_name d n =
        (if '.' ∈ d then
          d.takeWhile (fun c => c ≠ '.') ++
            '_' :: (Py.pyNatStr n ++ '.' :: (d.dropWhile (fun c => c ≠ '.')).tail)
        else d ++ '_' :: Py.pyNatStr n) ∧
      UploadFile.enumerate_destination_file_name d n =
        DownloadFile.enumerate_destination_file_name d n) ∧
    DownloadFile.enumerate_destination_file_name ("archive.tar.gz".data) 1 =
      ("archive_1.tar.gz".data) ∧
    UploadFile.enumerate_destination_file_name ("archive.tar.gz".data) 1 =
      ("archive_1.tar.gz".data) := by
  refine ⟨fun d n => ⟨?_, rfl⟩, ?_, ?_⟩
  · by_cases hd : '.' ∈ d
    · rw [DownloadFile.enumerate_destination_file_name, if_pos hd, if_pos hd,
        Py.subFirstDot_eq _ d hd]
      simp [List.append_assoc, List.cons_append]
    · simp [DownloadFile.enumerate_destination_file_name, hd]
  · simp only [DownloadFile.enumerate_destination_file_name, Py.pyNatStr_one]
    decide
  · simp only [UploadFile.enumerate_destination_file_name, Py.pyNatStr_one]
    decide

/-- C4 counterexample: with the destination file name absent, two distinct
matched files (file numbers 1 and 2) receive the same destination file name,
so the names are not enumerated and not distinct as the claim states. -/
theorem claim_C4_counterexample :
    DownloadFile.determine_destination_file_name ("a/data.txt".data) none (some 1) =
      DownloadFile.determine_destination_file_name ("b/data.txt".data) none (some 2) ∧
    ("a/data.txt".data) ≠ ("b/data.txt".data) := by decide

/-- C4 amended: destination names are enumerated only when a destination file
name is provided; in that case two distinct (nonzero) file numbers always
yield distinct destination names, so no earlier transfer's destination is
overwritten.  When the destination file name is absent, each file's name is
the basename of its source path and distinct files may collide. -/
theorem claim_C4_amended_enumeration (d : List Char) (n m : Nat) (sfp sfp' : List Char)
    (hd : d ≠ []) (hn : n ≠ 0) (hm : m ≠ 0) (hnm : n ≠ m) :
    DownloadFile.determine_destination_file_name sfp (some d) (some n) ≠
      DownloadFile.determine_destination_file_name sfp' (some d) (some m) := by
  intro h
  apply hnm
  have hsd : Py.pyTruthyStr (some d) = true := by simp [Py.pyTruthyStr, hd]
  have hsn : Py.pyTruthyNat (some n) = true := by simp [Py.pyTruthyNat, hn]
  have hsm : Py.pyTruthyNat (some m) = true := by simp [Py.pyTruthyNat, hm]
  rw [DownloadFile.determine_destination_file_name,
    DownloadFile.determine_destination_file_name, if_pos hsd, if_pos hsd,
    if_pos hsn, if_pos hsm] at h
  simp only [Option.getD_some] at h
  by_cases hdot : '.' ∈ d
  · rw [DownloadFile.enumerate_destination_file_name,
      DownloadFile.enumerate_destination_file_name, if_pos hdot, if_pos hdot] at h
    have hrepl := Py.subFirstDot_inj d hdot _ _ h
    have h2 : Py.pyNatStr n ++ ['.'] = Py.pyNatStr m ++ ['.'] := by
      simpa using hrepl
    exact Py.pyNatStr_injective (List.append_cancel_right h2)
  · rw [DownloadFile.enumerate_destination_file_name,
      DownloadFile.enumerate_destination_file_name, if_neg hdot, if_neg hdot] at h
    have h2 := List.append_cancel_left h
    have h3 : Py.pyNatStr n = Py.pyNatStr m := by simpa using h2
    exact Py.pyNatStr_injective h3

/-- Witness for the amended C4 at the concrete name data.txt with file
numbers 1 and 2. -/
theorem claim_C4_amended_enumeration_witness :
    ("data.txt".data ≠ ([] : List Char)) ∧ (1 : Nat) ≠ 0 ∧ (2 : Nat) ≠ 0 ∧
    (1 : Nat) ≠ 2 ∧
    DownloadFile.determine_destination_file_name [] (some ("data.txt".data)) (some 1) ≠
      DownloadFile.determine_destination_file_name [] (some ("data.txt".data)) (some 2) :=
  ⟨by decide, by decide, by decide, by decide,
    claim_C4_amended_enumeration ("data.txt".data) 1 2 [] []
      (by decide) (by decide) (by decide) (by decide)⟩

namespace DownloadFile

theorem find_matching_files_eq_filter (file_names : List (List Char))
    (p : List Char → Bool) :
    find_matching_files file_names p = file_names.filter p := by
  have key : ∀ (l acc : List (List Char)),
      l.foldl (fun matching_file_names file_name =>
        if p file_name then matching_file_names ++ [file_name]
        else matching_file_names) acc = acc ++ l.filter p := by
    intro l
    induction l with
    | nil => intro acc; simp
    | cons x xs ih =>
      intro acc
      by_cases hx : p x <;> simp [List.filter_cons, hx, ih, List.append_assoc]
  simpa [find_matching_files] using key file_names []

theorem run_download_loop_take (outcome : List Char → Except DbxError Unit) :
    ∀ files : List (List Char), ∃ k, k ≤ files.length ∧
      (run_download_loop outcome files).1 = (files.take k).map ApiEvent.filesDownload := by
  intro files
  induction files with
  | nil => exact ⟨0, by simp, by simp [run_download_loop]⟩
  | cons f fs ih =>
    cases ho : outcome f with
    | ok u =>
      obtain ⟨k, hk, heq⟩ := ih
      exact ⟨k + 1, by simpa using hk,
        by simp [run_download_loop, ho, heq, List.take_succ_cons]⟩
    | error e =>
      exact ⟨1, by simp, by simp [run_download_loop, ho, List.take_succ_cons]⟩

end DownloadFile

namespace UploadFile

theorem find_all_file_matches_eq_filter (file_names : List (List Char))
    (p : List Char → Bool) :
    find_all_file_matches file_names p = file_names.filter p := by
  have key : ∀ (l acc : List (List Char)),
      l.foldl (fun matching_file_names file =>
        if p file then matching_file_names ++ [file]
        else matching_file_names) acc = acc ++ l.filter p := by
    intro l
    induction l with
    | nil => intro acc; simp
    | cons x xs ih =>
      intro acc
      by_cases hx : p x <;> simp [List.filter_cons, hx, ih, List.append_assoc]
  simpa [find_all_file_matches] using key file_names []

theorem run_upload_loop_take (outcome : List Char → Except DbxError Unit) :
    ∀ files : List (List Char), ∃ k, k ≤ files.length ∧
      (run_upload_loop outcome files).1 = (files.take k).map ApiEvent.filesUpload := by
  intro files
  induction files with
  | nil => exact ⟨0, by simp, by simp [run_upload_loop]⟩
  | cons f fs ih =>
    cases ho : outcome f with
    | ok u =>
      obtain ⟨k, hk, heq⟩ := ih
      exact ⟨k + 1, by simpa using hk,
        by simp [run_upload_loop, ho, heq, List.take_succ_cons]⟩
    | error e =>
      cases e with
      | apiError =>
        obtain ⟨k, hk, heq⟩ := ih
        exact ⟨k + 1, by simpa using hk,
          by simp [run_upload_loop, ho, heq, List.take_succ_cons]⟩
      | authError =>
        exact ⟨1, by simp, by simp [run_upload_loop, ho, List.take_succ_cons]⟩
      | otherError =>
        exact ⟨1, by simp, by simp [run_upload_loop, ho, List.take_succ_cons]⟩

end UploadFile

theorem filesDownload_injective : Function.Injective ApiEvent.filesDownload := by
  intro a b h
  injection h

theorem filesUpload_injective : Function.Injective ApiEvent.filesUpload := by
  intro a b h
  injection h

/-- C5: source selection respects the match type.  In exact mode exactly one
transfer is attempted, at the path combined from the source folder and file
name (with the downloader's leading-slash guard); in regex mode the attempted
transfers are exactly the listed names accepted by the search predicate, in
list order. -/
theorem claim_C5_match_type_selection :
    ∀ (folder file cwd : List Char) (listed local_files : List (List Char))
      (p q : List Char → Bool),
      DownloadFile.download_planned MatchType.exact_match folder file listed p =
        [DownloadFile.ensureLeadingSlash
          (DownloadFile.combine_folder_and_file_name
            (DownloadFile.clean_folder_name folder) file)] ∧
      (DownloadFile.download_planned MatchType.exact_match folder file listed p).length = 1 ∧
      DownloadFile.download_planned MatchType.regex_match folder file listed p =
        (listed.filter p).map DownloadFile.ensureLeadingSlash ∧
      DownloadFile.find_matching_files listed p = listed.filter p ∧
      (∀ n, n ∈ DownloadFile.find_matching_files listed p ↔ n ∈ listed ∧ p n) ∧
      UploadFile.upload_planned MatchType.exact_match cwd folder file local_files q =
        [UploadFile.combine_folder_and_file_name (cwd ++ '/' :: folder) file] ∧
      (UploadFile.upload_planned MatchType.exact_match cwd folder file local_files q).length
        = 1 ∧
      UploadFile.upload_planned MatchType.regex_match cwd folder file local_files q =
        local_files.filter q ∧
      UploadFile.find_all_file_matches local_files q = local_files.filter q := by
  intro folder file cwd listed local_files p q
  refine ⟨rfl, rfl, ?_, DownloadFile.find_matching_files_eq_filter listed p, ?_, rfl, rfl,
    ?_, UploadFile.find_all_file_matches_eq_filter local_files q⟩
  · show (DownloadFile.find_matching_files listed p).map DownloadFile.ensureLeadingSlash =
      (listed.filter p).map DownloadFile.ensureLeadingSlash
    rw [DownloadFile.find_matching_files_eq_filter]
  · intro n
    rw [DownloadFile.find_matching_files_eq_filter]
    exact List.mem_filter
  · show UploadFile.find_all_file_matches local_files q = local_files.filter q
    exact UploadFile.find_all_file_matches_eq_filter local_files q

/-- C6: both scripts authenticate before any transfer.  get_dropbox_client
returns a client exactly when the account query with the supplied access key
succeeds; when the query fails, get_dropbox_client re-raises the error and
main of either script propagates it without computing any transfer. -/
theorem claim_C6_auth_before_transfer :
    ∀ (account_query : Client → Except DbxError Unit) (key : List Char) (e : DbxError)
      (mt : MatchType) (folder file cwd : List Char)
      (listed local_files : List (List Char)) (p q : List Char → Bool),
      ((∃ c, DownloadFile.get_dropbox_client account_query key = Except.ok c) ↔
        account_query ⟨key⟩ = Except.ok ()) ∧
      ((∃ c, UploadFile.get_dropbox_client account_query key = Except.ok c) ↔
        account_query ⟨key⟩ = Except.ok ()) ∧
      (account_query ⟨key⟩ = Except.error e →
        DownloadFile.get_dropbox_client account_query key = Except.error e ∧
        UploadFile.get_dropbox_client account_query key = Except.error e ∧
        DownloadFile.main_model account_query key mt folder file listed p =
          Except.error e ∧
        UploadFile.main_model account_query key mt cwd folder file local_files q =
          Except.error e) := by
  intro account_query key e mt folder file cwd listed local_files p q
  cases hq : account_query ⟨key⟩ with
  | ok u =>
    cases u
    refine ⟨⟨fun _ => rfl, fun _ => ⟨⟨key⟩, ?_⟩⟩, ⟨fun _ => rfl, fun _ => ⟨⟨key⟩, ?_⟩⟩, ?_⟩
    · simp [DownloadFile.get_dropbox_client, hq]
    · simp [UploadFile.get_dropbox_client, hq]
    · intro he
      exact absurd he (by simp)
  | error f =>
    refine ⟨⟨?_, ?_⟩, ⟨?_, ?_⟩, ?_⟩
    · rintro ⟨c, hc⟩
      simp [DownloadFile.get_dropbox_client, hq] at hc
    · intro h
      exact absurd h (by simp)
    · rintro ⟨c, hc⟩
      simp [UploadFile.get_dropbox_client, hq] at hc
    · intro h
      exact absurd h (by simp)
    · intro he
      have hef : f = e := by injection he
      subst hef
      exact ⟨by simp [DownloadFile.get_dropbox_client, hq],
        by simp [UploadFile.get_dropbox_client, hq],
        by simp [DownloadFile.main_model, DownloadFile.get_dropbox_client, hq],
        by simp [UploadFile.main_model, UploadFile.get_dropbox_client, hq]⟩

/-- C7: neither script retries a transfer.  The trace of each loop is the
image of a prefix of the file list (one call per attempted file, in order, so
each file is attempted at most once and nothing after a loop-aborting error),
and every file name occurs in the trace at most as often as in the list. -/
theorem claim_C7_no_retry :
    ∀ (files : List (List Char)) (outcome outcome' : List Char → Except DbxError Unit),
      (∃ k, k ≤ files.length ∧
        (DownloadFile.run_download_loop outcome files).1 =
          (files.take k).map ApiEvent.filesDownload) ∧
      (∀ n, ((DownloadFile.run_download_loop outcome files).1.countP
        (fun ev => ev = ApiEvent.filesDownload n)) ≤ files.countP (fun x => x = n)) ∧
      (∃ k, k ≤ files.length ∧
        (UploadFile.run_upload_loop outcome' files).1 =
          (files.take k).map ApiEvent.filesUpload) ∧
      (∀ n, ((UploadFile.run_upload_loop outcome' files).1.countP
        (fun ev => ev = ApiEvent.filesUpload n)) ≤ files.countP (fun x => x = n)) := by
  intro files outcome outcome'
  refine ⟨DownloadFile.run_download_loop_take outcome files, ?_,
    UploadFile.run_upload_loop_take outcome' files, ?_⟩
  · intro n
    obtain ⟨k, hk, heq⟩ := DownloadFile.run_download_loop_take outcome files
    rw [heq, List.countP_map]
    have hcong : ∀ x ∈ files.take k,
        ((fun ev => decide (ev = ApiEvent.filesDownload n)) ∘ ApiEvent.filesDownload) x
          = true ↔ (fun x => decide (x = n)) x = true := by
      intro x _
      by_cases hx : x = n <;> simp [hx]
    rw [List.countP_congr hcong]
    exact (List.take_sublist k files).countP_le _
  · intro n
    obtain ⟨k, hk, heq⟩ := UploadFile.run_upload_loop_take outcome' files
    rw [heq, List.countP_map]
    have hcong : ∀ x ∈ files.take k,
        ((fun ev => decide (ev = ApiEvent.filesUpload n)) ∘ ApiEvent.filesUpload) x
          = true ↔ (fun x => decide (x = n)) x = true := by
      intro x _
      by_cases hx : x = n <;> simp [hx]
    rw [List.countP_congr hcong]
    exact (List.take_sublist k files).countP_le _

/-- C10: the download is atomic with respect to the local destination.  When
the download errors, download_dropbox_file removes the local file it opened
(its last filesystem effect is the removal), re-raises the error, and the
destination path does not exist afterwards, whatever files existed before. -/
theorem claim_C10_download_atomic :
    ∀ (path : List Char) (st : List (List Char)) (e : DbxError),
      (DownloadFile.download_dropbox_file_fs path (Except.error e)).2 =
        Except.error e ∧
      (DownloadFile.download_dropbox_file_fs path (Except.error e)).1.getLast? =
        some (FsEvent.remove path) ∧
      path ∉ DownloadFile.runFs st
        (DownloadFile.download_dropbox_file_fs path (Except.error e)).1 := by
  intro path st e
  refine ⟨rfl, rfl, ?_⟩
  simp [DownloadFile.download_dropbox_file_fs, DownloadFile.runFs,
    DownloadFile.applyFsEvent, List.mem_filter]

namespace Py

theorem splitOnSlash_ne_nil : ∀ s : List Char, splitOnSlash s ≠ [] := by
  intro s
  induction s with
  | nil => simp [splitOnSlash]
  | cons c cs ih => by_cases hc : c = '/' <;> simp [splitOnSlash, hc]

theorem splitOnSlash_no_slash : ∀ s : List Char, ∀ x ∈ splitOnSlash s, '/' ∉ x := by
  intro s
  induction s with
  | nil =>
    intro x hx
    simp [splitOnSlash] at hx
    simp [hx]
  | cons c cs ih =>
    intro x hx
    by_cases hc : c = '/'
    · subst hc
      simp only [splitOnSlash, if_pos rfl] at hx
      rcases List.mem_cons.mp hx with hx1 | hx1
      · simp [hx1]
      · exact ih x hx1
    · rcases hr : splitOnSlash cs with _ | ⟨p, ps⟩
      · exact absurd hr (splitOnSlash_ne_nil cs)
      · have hmem : x ∈ (c :: p) :: ps := by
          simpa [splitOnSlash, hr, hc] using hx
        rcases List.mem_cons.mp hmem with hx1 | hx1
        · subst hx1
          intro hsl
          rcases List.mem_cons.mp hsl with h1 | h1
          · exact hc h1.symm
          · exact ih p (by rw [hr]; exact List.mem_cons_self p ps) h1
        · exact ih x (by rw [hr]; exact List.mem_cons_of_mem p hx1)

theorem splitOnSlash_of_no_slash : ∀ x : List Char, '/' ∉ x → splitOnSlash x = [x] := by
  intro x
  induction x with
  | nil => intro _; rfl
  | cons c cs ih =>
    intro h
    have hc : c ≠ '/' := fun hh => h (hh ▸ List.mem_cons_self c cs)
    have hcs : '/' ∉ cs := fun hh => h (List.mem_cons_of_mem _ hh)
    simp [splitOnSlash, ih hcs, hc]

theorem splitOnSlash_append_slash : ∀ (c rest : List Char), '/' ∉ c →
    splitOnSlash (c ++ '/' :: rest) = c :: splitOnSlash rest := by
  intro c
  induction c with
  | nil => intro rest _; simp [splitOnSlash]
  | cons ch c' ih =>
    intro rest h
    have hch : ch ≠ '/' := fun hh => h (hh ▸ List.mem_cons_self ch c')
    have hc' : '/' ∉ c' := fun hh => h (List.mem_cons_of_mem _ hh)
    simp [splitOnSlash, ih rest hc', hch]

theorem splitOnSlash_joinSlash : ∀ cs : List (List Char), cs ≠ [] →
    (∀ x ∈ cs, '/' ∉ x) → splitOnSlash (joinSlash cs) = cs := by
  intro cs
  induction cs with
  | nil => intro h _; exact absurd rfl h
  | cons p cs' ih =>
    intro _ hx
    rcases cs' with _ | ⟨q, ps⟩
    · show splitOnSlash (joinSlash [p]) = [p]
      simp only [joinSlash]
      exact splitOnSlash_of_no_slash p (hx p (List.mem_cons_self _ _))
    · show splitOnSlash (joinSlash (p :: q :: ps)) = p :: q :: ps
      simp only [joinSlash]
      rw [splitOnSlash_append_slash p _ (hx p (List.mem_cons_self _ _)),
        ih (by simp) (fun x hxx => hx x (List.mem_cons_of_mem _ hxx))]

theorem joinSlash_ne_nil : ∀ cs : List (List Char), cs ≠ [] → (∀ x ∈ cs, x ≠ []) →
    joinSlash cs ≠ [] := by
  intro cs
  rcases cs with _ | ⟨p, _ | ⟨q, ps⟩⟩
  · intro h _; exact absurd rfl h
  · intro _ hx
    simpa [joinSlash] using hx p (List.mem_cons_self _ _)
  · intro _ _
    simp [joinSlash]

theorem joinSlash_head? : ∀ cs : List (List Char), (∀ x ∈ cs, x ≠ [] ∧ '/' ∉ x) →
    (joinSlash cs).head? ≠ some '/' := by
  intro cs hx
  rcases cs with _ | ⟨p, _ | ⟨q, ps⟩⟩
  · simp [joinSlash]
  · obtain ⟨hne, hsl⟩ := hx p (List.mem_cons_self _ _)
    rcases p with _ | ⟨b, p'⟩
    · exact absurd rfl hne
    · have hb : b ≠ '/' := fun hh => hsl (hh ▸ List.mem_cons_self b p')
      simp [joinSlash, hb]
  · obtain ⟨hne, hsl⟩ := hx p (List.mem_cons_self _ _)
    rcases p with _ | ⟨b, p'⟩
    · exact absurd rfl hne
    · have hb : b ≠ '/' := fun hh => hsl (hh ▸ List.mem_cons_self b p')
      simp [joinSlash, hb]

theorem joinSlash_getLast? : ∀ cs : List (List Char), (∀ x ∈ cs, x ≠ [] ∧ '/' ∉ x) →
    (joinSlash cs).getLast? ≠ some '/' := by
  intro cs
  induction cs with
  | nil => intro _; simp [joinSlash]
  | cons p cs' ih =>
    intro hx
    rcases cs' with _ | ⟨q, ps⟩
    · obtain ⟨hne, hsl⟩ := hx p (List.mem_cons_self _ _)
      intro hEq
      have hj : joinSlash [p] = p := rfl
      rw [hj] at hEq
      obtain ⟨h1, h2⟩ := List.mem_getLast?_eq_getLast (x := '/') (by rw [hEq]; exact rfl)
      exact hsl (h2 ▸ List.getLast_mem h1)
    · have hrest : joinSlash (q :: ps) ≠ [] :=
        joinSlash_ne_nil (q :: ps) (by simp)
          (fun x hxx => (hx x (List.mem_cons_of_mem _ hxx)).1)
      have hj : joinSlash (p :: q :: ps) = p ++ '/' :: joinSlash (q :: ps) := rfl
      rw [hj, List.getLast?_append_cons]
      rcases hj2 : joinSlash (q :: ps) with _ | ⟨b, j'⟩
      · exact absurd hj2 hrest
      · rw [List.getLast?_cons_cons, ← hj2]
        exact ih (fun x hxx => hx x (List.mem_cons_of_mem _ hxx))

theorem normCompsStep_skip (i : Nat) (acc : List (List Char)) (comp : List Char)
    (h : comp = [] ∨ comp = ['.']) : normCompsStep i acc comp = acc := by
  simp only [normCompsStep]
  rw [if_pos h]

theorem normCompsStep_append (i : Nat) (acc : List (List Char)) (comp : List Char)
    (h1 : ¬(comp = [] ∨ comp = ['.']))
    (h2 : comp ≠ ['.', '.'] ∨ (i = 0 ∧ acc = []) ∨
      (acc ≠ [] ∧ acc.getLast? = some ['.', '.'])) :
    normCompsStep i acc comp = acc ++ [comp] := by
  simp only [normCompsStep]
  rw [if_neg h1, if_pos h2]

theorem normCompsStep_pop (i : Nat) (acc : List (List Char)) (comp : List Char)
    (h1 : ¬(comp = [] ∨ comp = ['.']))
    (h2 : ¬(comp ≠ ['.', '.'] ∨ (i = 0 ∧ acc = []) ∨
      (acc ≠ [] ∧ acc.getLast? = some ['.', '.'])))
    (h3 : acc ≠ []) :
    normCompsStep i acc comp = acc.dropLast := by
  simp only [normCompsStep]
  rw [if_neg h1, if_neg h2, if_pos h3]

theorem normComps_good (i : Nat) :
    ∀ (comps acc : List (List Char)), (∀ x ∈ comps, '/' ∉ x) →
      (∀ x ∈ acc, x ≠ [] ∧ x ≠ ['.'] ∧ '/' ∉ x) →
      ∀ x ∈ comps.foldl (normCompsStep i) acc, x ≠ [] ∧ x ≠ ['.'] ∧ '/' ∉ x := by
  intro comps
  induction comps with
  | nil => intro acc _ hacc x hx; exact hacc x hx
  | cons comp comps' ih =>
    intro acc hcomps hacc x hx
    rw [List.foldl_cons] at hx
    refine ih _ (fun y hy => hcomps y (List.mem_cons_of_mem _ hy)) ?_ x hx
    intro y hy
    by_cases h1 : comp = [] ∨ comp = ['.']
    · rw [normCompsStep_skip i acc comp h1] at hy
      exact hacc y hy
    · by_cases h2 : comp ≠ ['.', '.'] ∨ (i = 0 ∧ acc = []) ∨
        (acc ≠ [] ∧ acc.getLast? = some ['.', '.'])
      · rw [normCompsStep_append i acc comp h1 h2] at hy
        rcases List.mem_append.mp hy with hy1 | hy1
        · exact hacc y hy1
        · have hyc : y = comp := by simpa using hy1
          subst hyc
          push_neg at h1
          exact ⟨h1.1, h1.2, hcomps y (List.mem_cons_self _ _)⟩
      · by_cases h3 : acc ≠ []
        · rw [normCompsStep_pop i acc comp h1 h2 h3] at hy
          exact hacc y ((List.dropLast_sublist acc).subset hy)
        · simp only [normCompsStep] at hy
          rw [if_neg h1, if_neg h2, if_neg h3] at hy
          exact hacc y hy

theorem normCompsStep_ddf (acc : List (List Char)) (comp : List Char)
    (h : DotDotFront acc) :
    DotDotFront (normCompsStep 0 acc comp) := by
  obtain ⟨k, rest, hacc, hnot⟩ := h
  by_cases h1 : comp = [] ∨ comp = ['.']
  · rw [normCompsStep_skip 0 acc comp h1]
    exact ⟨k, rest, hacc, hnot⟩
  · by_cases hdd : comp = ['.', '.']
    · by_cases hacc0 : acc = []
      · rw [normCompsStep_append 0 acc comp h1 (Or.inr (Or.inl ⟨rfl, hacc0⟩))]
        refine ⟨1, [], ?_, by simp⟩
        simp [hacc0, hdd, List.replicate]
      · by_cases hlast : acc.getLast? = some ['.', '.']
        · rw [normCompsStep_append 0 acc comp h1 (Or.inr (Or.inr ⟨hacc0, hlast⟩))]
          have hrest : rest = [] := by
            by_contra hne
            rw [hacc, List.getLast?_append_of_ne_nil _ hne] at hlast
            obtain ⟨hh, heq⟩ :=
              List.mem_getLast?_eq_getLast (x := ['.', '.']) (by rw [hlast]; exact rfl)
            exact hnot (heq ▸ List.getLast_mem hh)
          subst hrest
          refine ⟨k + 1, [], ?_, by simp⟩
          rw [hacc, hdd]
          simp [List.replicate_succ']
        · have h2 : ¬(comp ≠ ['.', '.'] ∨ (0 = 0 ∧ acc = []) ∨
              (acc ≠ [] ∧ acc.getLast? = some ['.', '.'])) := by
            rintro (hcomp | ⟨_, h0⟩ | ⟨_, hl⟩)
            · exact hcomp hdd
            · exact hacc0 h0
            · exact hlast hl
          rw [normCompsStep_pop 0 acc comp h1 h2 hacc0]
          by_cases hre : rest = []
          · subst hre
            rw [hacc]
            simp only [List.append_nil]
            refine ⟨k - 1, [], ?_, by simp⟩
            simp [List.dropLast_replicate]
          · rw [hacc, List.dropLast_append_of_ne_nil _ hre]
            exact ⟨k, rest.dropLast, rfl,
              fun hm => hnot ((List.dropLast_sublist rest).subset hm)⟩
    · rw [normCompsStep_append 0 acc comp h1 (Or.inl hdd), hacc, List.append_assoc]
      refine ⟨k, rest ++ [comp], rfl, ?_⟩
      intro hm
      rcases List.mem_append.mp hm with hm1 | hm1
      · exact hnot hm1
      · have hcc : (['.', '.'] : List Char) = comp := by simpa using hm1
        exact hdd hcc.symm

theorem normComps_ddf (comps : List (List Char)) :
    DotDotFront (comps.foldl (normCompsStep 0) []) := by
  suffices h : ∀ acc, DotDotFront acc → DotDotFront (comps.foldl (normCompsStep 0) acc) by
    exact h [] ⟨0, [], rfl, by simp⟩
  induction comps with
  | nil => intro acc h; exact h
  | cons comp comps' ih =>
    intro acc h
    rw [List.foldl_cons]
    exact ih _ (normCompsStep_ddf acc comp h)

theorem normComps_replicate_dd : ∀ (k j : Nat),
    (List.replicate k ['.', '.']).foldl (normCompsStep 0)
      (List.replicate j (['.', '.'] : List Char)) =
      List.replicate (j + k) ['.', '.'] := by
  intro k
  induction k with
  | zero => intro j; simp
  | succ k ih =>
    intro j
    rw [List.replicate_succ, List.foldl_cons]
    have h1 : ¬((['.', '.'] : List Char) = [] ∨ (['.', '.'] : List Char) = ['.']) := by
      decide
    have hstep : normCompsStep 0 (List.replicate j (['.', '.'] : List Char)) ['.', '.'] =
        List.replicate (j + 1) ['.', '.'] := by
      cases j with
      | zero =>
        rw [normCompsStep_append 0 _ _ h1 (Or.inr (Or.inl ⟨rfl, by simp⟩))]
        simp [List.replicate_succ']
      | succ j' =>
        have hlast : (List.replicate (j' + 1) (['.', '.'] : List Char)).getLast? =
            some ['.', '.'] := by
          rw [List.replicate_succ', List.getLast?_concat]
        rw [normCompsStep_append 0 _ _ h1 (Or.inr (Or.inr ⟨by simp, hlast⟩))]
        rw [← List.replicate_succ']
    rw [hstep, ih (j + 1)]
    congr 1
    omega

theorem normComps_nodd : ∀ (rest acc : List (List Char)),
    (∀ x ∈ rest, x ≠ [] ∧ x ≠ ['.'] ∧ x ≠ ['.', '.']) →
    rest.foldl (normCompsStep 0) acc = acc ++ rest := by
  intro rest
  induction rest with
  | nil => intro acc _; simp
  | cons comp rest' ih =>
    intro acc h
    obtain ⟨hne, hnd, hndd⟩ := h comp (List.mem_cons_self _ _)
    rw [List.foldl_cons,
      normCompsStep_append 0 _ _ (by rintro (hh | hh); exacts [hne hh, hnd hh])
        (Or.inl hndd),
      ih _ (fun x hx => h x (List.mem_cons_of_mem _ hx)), List.append_assoc]
    simp

theorem normComps_normalized (cs : List (List Char))
    (hgood : ∀ x ∈ cs, x ≠ [] ∧ x ≠ ['.']) (hddf : DotDotFront cs) :
    normComps 0 cs = cs := by
  obtain ⟨k, rest, hcs, hnot⟩ := hddf
  subst hcs
  rw [normComps, List.foldl_append]
  have h1 : (List.replicate k (['.', '.'] : List Char)).foldl (normCompsStep 0) [] =
      List.replicate k ['.', '.'] := by
    simpa using normComps_replicate_dd k 0
  rw [h1, normComps_nodd rest (List.replicate k ['.', '.']) ?_]
  intro x hx
  have hin : x ∈ List.replicate k (['.', '.'] : List Char) ++ rest :=
    List.mem_append.mpr (Or.inr hx)
  exact ⟨(hgood x hin).1, (hgood x hin).2, fun hxdd => hnot (hxdd ▸ hx)⟩

theorem initialSlashes_eq_zero (s : List Char) (h : s.head? ≠ some '/') :
    initialSlashes s = 0 := by
  rcases s with _ | ⟨a, s'⟩
  · simp [initialSlashes]
  · have ha : a ≠ '/' := fun hh => h (by simp [hh])
    simp [initialSlashes, ha]

theorem normpath_ne_nil (t : List Char) : normpath t ≠ [] := by
  simp only [normpath]
  split_ifs <;> simp_all

theorem normpath_rel (t : List Char) (ht : t ≠ []) (h0 : t.head? ≠ some '/') :
    normpath t = if joinSlash (normComps 0 (splitOnSlash t)) = [] then ['.']
      else joinSlash (normComps 0 (splitOnSlash t)) := by
  simp only [normpath, if_neg (by exact ht : ¬t = []), initialSlashes_eq_zero t h0,
    List.replicate_zero, List.nil_append]

theorem normpath_boundary (t : List Char) (ht : t ≠ []) (h0 : t.head? ≠ some '/') :
    (normpath t).head? ≠ some '/' ∧ (normpath t).getLast? ≠ some '/' := by
  rw [normpath_rel t ht h0]
  by_cases hj : joinSlash (normComps 0 (splitOnSlash t)) = []
  · rw [if_pos hj]
    constructor <;> simp
  · rw [if_neg hj]
    have hgood : ∀ x ∈ normComps 0 (splitOnSlash t), x ≠ [] ∧ x ≠ ['.'] ∧ '/' ∉ x := by
      intro x hx
      exact normComps_good 0 (splitOnSlash t) [] (splitOnSlash_no_slash t) (by simp) x
        (by simpa [normComps] using hx)
    exact ⟨joinSlash_head? _ (fun x hx => ⟨(hgood x hx).1, (hgood x hx).2.2⟩),
      joinSlash_getLast? _ (fun x hx => ⟨(hgood x hx).1, (hgood x hx).2.2⟩)⟩

theorem dropWhile_eq_self_of_head {α : Type} (p : α → Bool) (l : List α)
    (h : ∀ a, l.head? = some a → p a = false) : l.dropWhile p = l := by
  rcases l with _ | ⟨a, l'⟩
  · rfl
  · rw [List.dropWhile_cons, h a rfl]
    simp

theorem stripSlashes_head? (s : List Char) : (stripSlashes s).head? ≠ some '/' := by
  intro hEq
  rw [stripSlashes, List.head?_reverse] at hEq
  have hvne : (s.dropWhile (fun c => c = '/')).reverse.dropWhile (fun c => c = '/') ≠ [] := by
    intro h0
    rw [h0] at hEq
    simp at hEq
  rw [dropWhile_getLast? _ (s.dropWhile (fun c => c = '/')).reverse hvne,
    List.getLast?_reverse] at hEq
  have hfalse := dropWhile_head_not (fun c => c = '/') s '/' hEq
  simp at hfalse

theorem stripSlashes_getLast? (s : List Char) : (stripSlashes s).getLast? ≠ some '/' := by
  intro hEq
  rw [stripSlashes, List.getLast?_reverse] at hEq
  have hfalse := dropWhile_head_not (fun c => c = '/')
    (s.dropWhile (fun c => c = '/')).reverse '/' hEq
  simp at hfalse

theorem stripSlashes_eq_self (s : List Char) (h1 : s.head? ≠ some '/')
    (h2 : s.getLast? ≠ some '/') : stripSlashes s = s := by
  have e1 : s.dropWhile (fun c => c = '/') = s := by
    apply dropWhile_eq_self_of_head
    intro a ha
    have haa : a ≠ '/' := fun hh => h1 (by rw [ha, hh])
    simpa using haa
  have e2 : s.reverse.dropWhile (fun c => c = '/') = s.reverse := by
    apply dropWhile_eq_self_of_head
    intro a ha
    rw [List.head?_reverse] at ha
    have haa : a ≠ '/' := fun hh => h2 (by rw [ha, hh])
    simpa using haa
  rw [stripSlashes, e1, e2, List.reverse_reverse]

theorem normpath_dot : normpath ['.'] = ['.'] := by decide

theorem normpath_idem_rel (t : List Char) (ht : t ≠ []) (h0 : t.head? ≠ some '/') :
    normpath (normpath t) = normpath t := by
  rw [normpath_rel t ht h0]
  by_cases hj : joinSlash (normComps 0 (splitOnSlash t)) = []
  · rw [if_pos hj]
    exact normpath_dot
  · rw [if_neg hj]
    have hgood : ∀ x ∈ normComps 0 (splitOnSlash t), x ≠ [] ∧ x ≠ ['.'] ∧ '/' ∉ x := by
      intro x hx
      exact normComps_good 0 (splitOnSlash t) [] (splitOnSlash_no_slash t) (by simp) x
        (by simpa [normComps] using hx)
    have hcsne : normComps 0 (splitOnSlash t) ≠ [] := by
      intro h0'
      rw [h0'] at hj
      exact hj rfl
    have hhead : (joinSlash (normComps 0 (splitOnSlash t))).head? ≠ some '/' :=
      joinSlash_head? _ (fun x hx => ⟨(hgood x hx).1, (hgood x hx).2.2⟩)
    rw [normpath_rel (joinSlash (normComps 0 (splitOnSlash t))) hj hhead,
      splitOnSlash_joinSlash _ hcsne (fun x hx => (hgood x hx).2.2),
      normComps_normalized _ (fun x hx => ⟨(hgood x hx).1, (hgood x hx).2.1⟩)
        (by simpa [normComps] using normComps_ddf (splitOnSlash t)),
      if_neg hj]

end Py

namespace DownloadFile

theorem clean_folder_name_boundary (s : List Char) :
    (clean_folder_name s).head? ≠ some '/' ∧
    (clean_folder_name s).getLast? ≠ some '/' := by
  by_cases ht : Py.stripSlashes s = []
  · simp [clean_folder_name, ht]
  · have hb := Py.normpath_boundary (Py.stripSlashes s) ht (Py.stripSlashes_head? s)
    simpa [clean_folder_name, ht] using hb

theorem clean_folder_name_idem (s : List Char) :
    clean_folder_name (clean_folder_name s) = clean_folder_name s := by
  by_cases ht : Py.stripSlashes s = []
  · have h1 : clean_folder_name s = [] := by simp [clean_folder_name, ht]
    rw [h1]
    rfl
  · have hcl : clean_folder_name s = Py.normpath (Py.stripSlashes s) := by
      simp [clean_folder_name, ht]
    rw [hcl]
    have hne := Py.normpath_ne_nil (Py.stripSlashes s)
    have hb := Py.normpath_boundary (Py.stripSlashes s) ht (Py.stripSlashes_head? s)
    have hstrip : Py.stripSlashes (Py.normpath (Py.stripSlashes s)) =
        Py.normpath (Py.stripSlashes s) :=
      Py.stripSlashes_eq_self _ hb.1 hb.2
    show clean_folder_name (Py.normpath (Py.stripSlashes s)) =
      Py.normpath (Py.stripSlashes s)
    simp only [clean_folder_name, hstrip]
    rw [if_pos hne]
    exact Py.normpath_idem_rel (Py.stripSlashes s) ht (Py.stripSlashes_head? s)

end DownloadFile

/-- C8: clean_folder_name is idempotent and its result never begins or ends
with a slash; the uploader's copy of the function agrees with the
downloader's. -/
theorem claim_C8_clean_folder_name :
    ∀ s : List Char,
      DownloadFile.clean_folder_name (DownloadFile.clean_folder_name s) =
        DownloadFile.clean_folder_name s ∧
      (DownloadFile.clean_folder_name s).head? ≠ some '/' ∧
      (DownloadFile.clean_folder_name s).getLast? ≠ some '/' ∧
      UploadFile.clean_folder_name s = DownloadFile.clean_folder_name s := by
  intro s
  exact ⟨DownloadFile.clean_folder_name_idem s,
    (DownloadFile.clean_folder_name_boundary s).1,
    (DownloadFile.clean_folder_name_boundary s).2, rfl⟩
